import Mathlib

set_option maxRecDepth 40000

/-!
Shallow embedding of the Knuth-Morris-Pratt substring search implemented by
the function `kmp` of `src/string/search/kmp/c/main.c` (lines 37-78).

Modelling conventions:
* A symbol is the byte value of a `char`, a natural number in `[0, 255]`.
  The main model reads `char` as unsigned, so the index cast
  `(size_t)pattern[j]` is the byte value itself; `charCastSigned` models the
  same cast under a signed-`char` ABI for the bounds analysis.
* The variable-length array `size_t dfa[RADIX][patternlen]` is modelled as a
  function `FTbl`; a cell holds `some v` once the program stored `v` in it
  and `none` while it is still uninitialized (automatic storage holds an
  indeterminate value).
* Every store into the array is bounds-checked (`writeF`): an out-of-bounds
  store, and likewise the use of an uninitialized or out-of-bounds cell as a
  state, is undefined behavior in the C program and makes the modelled
  computation return `none`.
* Patterns and texts reach `kmp` as NUL-terminated C strings, so their
  symbols are nonzero bytes (`ValidSeq`); `pattern[j]` is `p.getD j 0`,
  which correctly yields the NUL terminator `0` for `j = p.length`.
* `kmp text pattern` returns `some (some off)` for `return (&text[off])`,
  `some none` for `return (NULL)`, and `none` for undefined behavior.
-/

/-- Alphabet size: `const size_t RADIX = 256` (line 39). -/
def RADIX : Nat := 256

/-- The DFA table `size_t dfa[RADIX][patternlen]` (line 42).  `t c j` is cell
`dfa[c][j]`: `none` while uninitialized, `some v` once `v` was stored. -/
abbrev FTbl : Type := Nat → Nat → Option Nat

/-- A store `dfa[c][j] = v` guarded by the array bounds (`c < RADIX`,
`j < patternlen`).  An out-of-bounds store is undefined behavior, modelled by
`none`.  The stored cell content `v` is an `Option Nat` because the copy loop
(line 55) may copy an uninitialized (indeterminate) cell. -/
def writeF (m : Nat) (t : FTbl) (c j : Nat) (v : Option Nat) : Option FTbl :=
  if c < RADIX ∧ j < m then
    some fun c' j' => if c' = c ∧ j' = j then v else t c' j'
  else none

/-- Lines 46-49: `for (i = 1; i < RADIX; i++) dfa[i][0] = 0;` followed by
`dfa[(size_t)pattern[0]][0] = 1`.  Note that the loop starts at symbol `1`,
so `dfa[0][0]` is never initialized.  For the empty pattern the column count
is `0` and already the first store is out of bounds. -/
def kmpInit (p : List Nat) : Option FTbl := do
  let t ← (List.range' 1 255).foldlM
    (fun t i => writeF p.length t i 0 (some 0)) (fun _ _ => none)
  writeF p.length t (p.getD 0 0) 0 (some 1)

/-- Lines 54-56: `for (c = 0; c < RADIX; c++) dfa[c][j] = dfa[c][state];`
(`x` is the running restart state `state`).  The value read may itself be
uninitialized (`none`) and is then stored as such. -/
def copyCol (m : Nat) (t : FTbl) (x j : Nat) : Option FTbl :=
  (List.range RADIX).foldlM (fun t c => writeF m t c j (t c x)) t

/-- One iteration of the construction loop, lines 52-63: copy column `x`
into column `j`, override the entry for `pattern[j]` to `j + 1` (line 59),
and advance the restart state `state = dfa[pattern[j]][state]` (line 62).
Using an uninitialized cell as the new restart state would propagate an
indeterminate value, so the model fails (`none`) in that case. -/
def buildStep (p : List Nat) (tx : FTbl × Nat) (j : Nat) : Option (FTbl × Nat) := do
  let t1 ← copyCol p.length tx.1 tx.2 j
  let t2 ← writeF p.length t1 (p.getD j 0) j (some (j + 1))
  (t2 (p.getD j 0) tx.2).map fun x' => (t2, x')

/-- The table and restart state at the start of iteration `j` of the
construction loop (line 52): the initialization of lines 46-49 followed by
iterations `1, ..., j - 1`. -/
def buildAt (p : List Nat) (j : Nat) : Option (FTbl × Nat) := do
  let t0 ← kmpInit p
  (List.range' 1 (j - 1)).foldlM (buildStep p) (t0, 0)

/-- The fully built table: initialization plus the whole construction loop
`for (j = 1; j < patternlen; j++)` (lines 45-63). -/
def kmpBuild (p : List Nat) : Option FTbl :=
  (buildAt p p.length).map Prod.fst

/-- The `size_t` value of the C expression `i - patternlen + 1` (line 72):
the subtraction wraps modulo `2 ^ 64` and the `+ 1` wraps back.  For every
reachable return (where `patternlen ≤ i + 1 ≤ 2 ^ 64`) this equals
`i + 1 - patternlen`; see `sizeSub_eq`. -/
def sizeSub (i m : Nat) : Nat :=
  (i % 2 ^ 64 + 1 + (2 ^ 64 - m % 2 ^ 64)) % 2 ^ 64

/-- The scan loop, lines 66-74: `state = dfa[(size_t)text[i]][state];` and
`if (state >= patternlen) return (&text[i - patternlen + 1]);`, with
`some none` for falling off the end (`return (NULL)`, line 77).  Using an
uninitialized or out-of-bounds cell as the next state is undefined behavior
(`none`). -/
def kmpScan (t : FTbl) (m : Nat) : List Nat → Nat → Nat → Option (Option Nat)
  | [], _, _ => some none
  | c :: rest, i, state =>
    (t c state).bind fun state' =>
      if m ≤ state' then some (some (sizeSub i m))
      else kmpScan t m rest (i + 1) state'

/-- The whole `kmp` function (lines 37-78): build the DFA from `pattern`,
then run it over `text` from state 0.  The returned offset stands for the
returned pointer `&text[offset]`. -/
def kmp (text pattern : List Nat) : Option (Option Nat) := do
  let t ← kmpBuild pattern
  kmpScan t pattern.length text 0 0

/-- The `size_t` value of the casts `(size_t)pattern[j]` and
`(size_t)text[i]` (lines 49, 59, 62, 68) on an ABI where `char` is signed
(e.g. x86-64 SysV): a byte `b ≥ 128` is the negative `char` `b - 256` and
sign-extends to `2 ^ 64 - 256 + b`.  The rest of the model uses the
unsigned-`char` reading, under which the cast is the identity on bytes. -/
def charCastSigned (b : Nat) : Nat := if b < 128 then b else 2 ^ 64 - 256 + b

/-- Byte values of an ASCII string literal, for concrete inputs. -/
def ascii (s : String) : List Nat := s.data.map Char.toNat

/-- Content of cell `dfa[c][j]` of the table built for `p`: `none` if the
build itself hits undefined behavior, `some none` if the cell was never
written, `some (some v)` if it holds `v`. -/
def builtCell (p : List Nat) (c j : Nat) : Option (Option Nat) :=
  (kmpBuild p).map fun t => t c j

/-- Content of cell `dfa[c][s]` at the start of construction-loop
iteration `j`. -/
def buildAtCell (p : List Nat) (j c s : Nat) : Option (Option Nat) :=
  (buildAt p j).map fun tx => tx.1 c s

/-- The restart state at the start of construction-loop iteration `j`. -/
def buildAtCursor (p : List Nat) (j : Nat) : Option Nat :=
  (buildAt p j).map Prod.snd

/-- A byte sequence as delivered to `kmp` through a NUL-terminated C string:
every symbol is a nonzero byte. -/
def ValidSeq (l : List Nat) : Prop := ∀ c ∈ l, 1 ≤ c ∧ c ≤ 255

instance (l : List Nat) : Decidable (ValidSeq l) :=
  inferInstanceAs (Decidable (∀ c ∈ l, 1 ≤ c ∧ c ≤ 255))

/-- Specification-side: the pattern occurs in the text at offset `o`,
i.e. `t[o .. o + len p)` equals `p`. -/
def occursAt (p t : List Nat) (o : Nat) : Bool := (t.drop o).take p.length == p

/-- Specification-side: the smallest offset at which the pattern occurs in
the text, if any (the contract of the search). -/
def firstOccur (p t : List Nat) : Option Nat :=
  (List.range t.length).find? (occursAt p t)

/-- Length of the longest prefix of `p` that is a suffix of `s`: the state
of the Knuth-Morris-Pratt automaton of `p` after reading `s`. -/
def matchLen (p s : List Nat) : Nat :=
  Nat.findGreatest (fun k => p.take k <:+ s) p.length

/-- Invariant of the construction: every column `j < J` of the table holds,
for every nonzero symbol `c`, the Knuth-Morris-Pratt transition
`matchLen p (p.take j ++ [c])`. -/
def ColsOK (p : List Nat) (t : FTbl) (J : Nat) : Prop :=
  ∀ j, j < J → ∀ c, 1 ≤ c → c ≤ 255 → t c j = some (matchLen p (p.take j ++ [c]))

/-- Invariant of the construction: row 0 of the table (symbol `0`, the NUL
terminator) is never written in columns below `J`. -/
def Row0 (t : FTbl) (J : Nat) : Prop := ∀ j, j < J → t 0 j = none

/-- `pattern[j]` is an element of the pattern when `j` is in range. -/
theorem getD_mem_of_lt {l : List Nat} {j : Nat} (h : j < l.length) : l.getD j 0 ∈ l := by
  induction l generalizing j with
  | nil => simp at h
  | cons a l ih =>
    cases j with
    | zero => simp
    | succ j =>
      rw [List.getD_cons_succ]
      exact List.mem_cons_of_mem _ (ih (by simpa using h))

/-- The one-element prefix of a nonempty list. -/
theorem take_one_of_ne_nil {p : List Nat} (hp : p ≠ []) : p.take 1 = [p.getD 0 0] := by
  cases p with
  | nil => exact absurd rfl hp
  | cons a l => simp

/-- Extending a prefix by its next element. -/
theorem take_succ_getD {p : List Nat} {j : Nat} (h : j < p.length) :
    p.take (j + 1) = p.take j ++ [p.getD j 0] := by
  induction p generalizing j with
  | nil => simp at h
  | cons a l ih =>
    cases j with
    | zero => simp
    | succ j =>
      rw [List.take_succ_cons, List.take_succ_cons, List.getD_cons_succ,
        ih (by simpa using h)]
      rfl

/-- Appending the same tail preserves the suffix relation. -/
theorem suffix_append_same {l₁ l₂ t : List Nat} (h : l₁ <:+ l₂) : l₁ ++ t <:+ l₂ ++ t := by
  obtain ⟨u, rfl⟩ := h
  exact ⟨u, (List.append_assoc u l₁ t).symm⟩

/-- A suffix relation between two lists each extended by one element splits
into equality of the last elements and a suffix relation of the fronts. -/
theorem concat_suffix_concat {l s : List Nat} {a c : Nat} :
    l ++ [a] <:+ s ++ [c] ↔ a = c ∧ l <:+ s := by
  constructor
  · rintro ⟨u, hu⟩
    rw [← List.append_assoc] at hu
    have h := List.append_inj' hu rfl
    refine ⟨?_, ⟨u, h.1⟩⟩
    have := h.2
    simpa using this
  · rintro ⟨rfl, u, rfl⟩
    exact ⟨u, (List.append_assoc u l [a]).symm⟩

/-- Two suffixes of the same list are suffixes of one another, shorter of
longer. -/
theorem suffix_chain {l₁ l₂ s : List Nat} (h₁ : l₁ <:+ s) (h₂ : l₂ <:+ s)
    (h : l₁.length ≤ l₂.length) : l₁ <:+ l₂ := by
  obtain ⟨u₁, hu₁⟩ := h₁
  obtain ⟨u₂, hu₂⟩ := h₂
  have e1 : u₁.length + l₁.length = s.length := by rw [← hu₁, List.length_append]
  have e2 : u₂.length + l₂.length = s.length := by rw [← hu₂, List.length_append]
  have h₁' : l₁ = s.drop u₁.length := by rw [← hu₁, List.drop_left]
  have h₂' : l₂ = s.drop u₂.length := by rw [← hu₂, List.drop_left]
  rw [h₁', h₂']
  exact List.drop_suffix_drop_left s (by omega)

/-- A proper suffix of a list is a suffix of its tail. -/
theorem suffix_drop_one {l s : List Nat} (h : l <:+ s) (hlen : l.length < s.length) :
    l <:+ s.drop 1 := by
  obtain ⟨u, rfl⟩ := h
  have hu : 1 ≤ u.length := by rw [List.length_append] at hlen; omega
  rw [List.drop_append_of_le_length hu]
  exact ⟨u.drop 1, rfl⟩

/-- `List.find?` over an initial segment of the naturals returns the least
index satisfying the predicate. -/
theorem find?_range_eq_some {f : Nat → Bool} {n o : Nat} (ho : f o = true) (hlt : o < n)
    (hmin : ∀ k, k < o → f k = false) : (List.range n).find? f = some o := by
  induction n with
  | zero => omega
  | succ n ih =>
    rw [List.range_succ, List.find?_append]
    rcases Nat.lt_or_ge o n with h | h
    · rw [ih h]
      rfl
    · have ho' : o = n := by omega
      subst ho'
      have hnone : (List.range o).find? f = none := by
        rw [List.find?_eq_none]
        intro x hx
        simp [hmin x (List.mem_range.mp hx)]
      rw [hnone]
      simp [List.find?, ho]

/-- `matchLen` is at most the pattern length. -/
theorem matchLen_le (p s : List Nat) : matchLen p s ≤ p.length :=
  Nat.findGreatest_le p.length

/-- Any prefix of `p` that is a suffix of `s` bounds `matchLen` from below. -/
theorem le_matchLen {p s : List Nat} {k : Nat} (hk : k ≤ p.length)
    (h : p.take k <:+ s) : k ≤ matchLen p s :=
  Nat.le_findGreatest hk h

/-- The prefix of length `matchLen p s` is indeed a suffix of `s`. -/
theorem matchLen_suffix (p s : List Nat) : p.take (matchLen p s) <:+ s := by
  unfold matchLen
  exact Nat.findGreatest_spec (P := fun k => p.take k <:+ s) (m := 0)
    (Nat.zero_le p.length) (by simp)

/-- `matchLen` is at most the length of the scanned word. -/
theorem matchLen_length_le (p s : List Nat) : matchLen p s ≤ s.length := by
  have h := (matchLen_suffix p s).length_le
  rwa [List.length_take, Nat.min_eq_left (matchLen_le p s)] at h

/-- Nothing is matched after reading nothing. -/
theorem matchLen_nil (p : List Nat) : matchLen p [] = 0 :=
  Nat.le_zero.mp (matchLen_length_le p [])

/-- Reading a prefix of the pattern matches it entirely. -/
theorem matchLen_take (p : List Nat) {k : Nat} (hk : k ≤ p.length) :
    matchLen p (p.take k) = k := by
  apply le_antisymm
  · have h := matchLen_length_le p (p.take k)
    rwa [List.length_take_of_le hk] at h
  · exact le_matchLen hk (List.suffix_refl _)

/-- The automaton state after reading a single symbol. -/
theorem matchLen_single {p : List Nat} (hp : p ≠ []) (c : Nat) :
    matchLen p [c] = if c = p.getD 0 0 then 1 else 0 := by
  have h1 : matchLen p [c] ≤ 1 := by simpa using matchLen_length_le p [c]
  have hplen : 1 ≤ p.length := List.length_pos.mpr hp
  by_cases hc : c = p.getD 0 0
  · rw [if_pos hc]
    apply le_antisymm h1
    apply le_matchLen hplen
    rw [take_one_of_ne_nil hp, hc]
  · rw [if_neg hc]
    by_contra h
    have h2 : matchLen p [c] = 1 := by omega
    have h3 := matchLen_suffix p [c]
    rw [h2, take_one_of_ne_nil hp] at h3
    obtain ⟨u, hu⟩ := h3
    have hul : u = [] := by
      have hlen := congrArg List.length hu
      rw [List.length_append] at hlen
      simp only [List.length_singleton] at hlen
      exact List.length_eq_zero.mp (by omega)
    rw [hul, List.nil_append] at hu
    injection hu with h1 h2
    exact hc h1.symm

/-- Key extension property of `matchLen`: the longest match after reading one
more symbol only depends on the previously matched prefix.  This is the
correctness core of both the restart-state update and the scan step. -/
theorem matchLen_append (p s : List Nat) (c : Nat) :
    matchLen p (s ++ [c]) = matchLen p (p.take (matchLen p s) ++ [c]) := by
  apply le_antisymm
  · rcases Nat.eq_zero_or_pos (matchLen p (s ++ [c])) with h0 | hpos
    · rw [h0]; exact Nat.zero_le _
    · obtain ⟨k', hk⟩ : ∃ k', matchLen p (s ++ [c]) = k' + 1 :=
        ⟨matchLen p (s ++ [c]) - 1, by omega⟩
      have hkle : k' + 1 ≤ p.length := hk ▸ matchLen_le p (s ++ [c])
      have hsuf := matchLen_suffix p (s ++ [c])
      rw [hk, take_succ_getD (by omega)] at hsuf
      obtain ⟨hac, hls⟩ := concat_suffix_concat.mp hsuf
      have hk'le : k' ≤ matchLen p s := le_matchLen (by omega) hls
      have hchain : p.take k' <:+ p.take (matchLen p s) := by
        apply suffix_chain hls (matchLen_suffix p s)
        rw [List.length_take_of_le (by omega), List.length_take_of_le (matchLen_le p s)]
        exact hk'le
      rw [hk]
      apply le_matchLen hkle
      rw [take_succ_getD (by omega : k' < p.length), hac]
      exact suffix_append_same hchain
  · apply le_matchLen (matchLen_le _ _)
    exact (matchLen_suffix p _).trans (suffix_append_same (matchLen_suffix p s))

/-- On a mismatching symbol, the matched prefix may be shortened by one
before extending: suffixes shorter than `j + 1` of `p.take j ++ [c]` ignore
the head of `p.take j`. -/
theorem matchLen_mismatch {p : List Nat} {j c : Nat} (hj : j < p.length)
    (hc : c ≠ p.getD j 0) :
    matchLen p (p.take j ++ [c]) = matchLen p ((p.take j).drop 1 ++ [c]) := by
  apply le_antisymm
  · rcases Nat.eq_zero_or_pos (matchLen p (p.take j ++ [c])) with h0 | hpos
    · rw [h0]; exact Nat.zero_le _
    · obtain ⟨k', hk⟩ : ∃ k', matchLen p (p.take j ++ [c]) = k' + 1 :=
        ⟨matchLen p (p.take j ++ [c]) - 1, by omega⟩
      have hkle : k' + 1 ≤ p.length := hk ▸ matchLen_le _ _
      have hsuf := matchLen_suffix p (p.take j ++ [c])
      rw [hk, take_succ_getD (by omega)] at hsuf
      obtain ⟨hac, hls⟩ := concat_suffix_concat.mp hsuf
      have hk'j : k' ≤ j := by
        have h := hls.length_le
        rwa [List.length_take_of_le (by omega), List.length_take_of_le (le_of_lt hj)] at h
      have hk'ne : k' ≠ j := by
        intro he
        rw [he] at hac
        exact hc hac.symm
      have hdrop : p.take k' <:+ (p.take j).drop 1 := by
        apply suffix_drop_one hls
        rw [List.length_take_of_le (by omega), List.length_take_of_le (le_of_lt hj)]
        omega
      rw [hk]
      apply le_matchLen hkle
      rw [take_succ_getD (by omega : k' < p.length), hac]
      exact suffix_append_same hdrop
  · apply le_matchLen (matchLen_le _ _)
    exact (matchLen_suffix p _).trans (suffix_append_same (List.drop_suffix 1 _))

/-- Unfolding of the occurrence test. -/
theorem occursAt_eq_true {p t : List Nat} {o : Nat} :
    occursAt p t o = true ↔ (t.drop o).take p.length = p := by
  simp [occursAt]

/-- A nonempty pattern cannot occur where it would overrun the text. -/
theorem occursAt_false_of_short {p t : List Nat} {o : Nat} (hp : p ≠ [])
    (h : t.length < o + p.length) : occursAt p t o = false := by
  cases hob : occursAt p t o with
  | false => rfl
  | true =>
    exfalso
    have he := occursAt_eq_true.mp hob
    have hlen := congrArg List.length he
    rw [List.length_take, List.length_drop] at hlen
    have hplen : 0 < p.length := List.length_pos.mpr hp
    omega

/-- The `size_t` expression `i - patternlen + 1` evaluates to the match
offset whenever a match can actually end at position `i`. -/
theorem sizeSub_eq {i m : Nat} (hi : i < 2 ^ 64) (hm1 : 1 ≤ m) (hm : m ≤ i + 1) :
    sizeSub i m = i + 1 - m := by
  unfold sizeSub
  rw [Nat.mod_eq_of_lt hi]
  rcases Nat.lt_or_ge m (2 ^ 64) with h2 | h2
  · rw [Nat.mod_eq_of_lt h2]
    have h4 : i + 1 + (2 ^ 64 - m) = (i + 1 - m) + 2 ^ 64 := by omega
    rw [h4, Nat.add_mod_right]
    exact Nat.mod_eq_of_lt (by omega)
  · have h3 : m = 2 ^ 64 := by omega
    subst h3
    rw [Nat.mod_self, Nat.sub_zero]
    have h5 : i + 1 = 2 ^ 64 := by omega
    rw [h5, Nat.add_mod_left, Nat.mod_self]
    omega

/-- An in-bounds store succeeds and updates exactly one cell. -/
theorem writeF_some {m : Nat} (t : FTbl) {c j : Nat} (v : Option Nat)
    (hc : c < RADIX) (hj : j < m) :
    writeF m t c j v = some fun c' j' => if c' = c ∧ j' = j then v else t c' j' := by
  simp [writeF, hc, hj]

/-- The initialization loop writes `0` into row `i`, column `0`, for every
listed row, leaving all other cells unchanged. -/
theorem initFold_ok {m : Nat} (hm : 0 < m) :
    ∀ (cs : List Nat) (t : FTbl), (∀ i ∈ cs, i < RADIX) →
      ∃ t', cs.foldlM (fun t i => writeF m t i 0 (some 0)) t = some t' ∧
        ∀ c j, t' c j = if j = 0 ∧ c ∈ cs then some 0 else t c j := by
  intro cs
  induction cs with
  | nil =>
    intro t h
    refine ⟨t, rfl, ?_⟩
    intro c j
    simp
  | cons c₀ cs ih =>
    intro t h
    obtain ⟨t', h1, h2⟩ :=
      ih (fun c' j' => if c' = c₀ ∧ j' = 0 then some 0 else t c' j')
        (fun i hi => h i (List.mem_cons_of_mem c₀ hi))
    refine ⟨t', ?_, ?_⟩
    · rw [List.foldlM_cons, writeF_some t (some 0) (h c₀ (List.mem_cons_self c₀ cs)) hm]
      exact h1
    · intro c j
      rw [h2]
      by_cases hj : j = 0
      · subst hj
        by_cases hcs : c ∈ cs
        · simp [hcs, List.mem_cons]
        · by_cases hc0 : c = c₀
          · subst hc0
            simp [hcs, List.mem_cons]
          · simp [hcs, hc0, List.mem_cons]
      · simp [hj]

/-- Characterization of lines 46-49: after the initialization, column `0`
holds `1` at row `pattern[0]`, `0` at every other nonzero row, and nothing
anywhere else; in particular `dfa[0][0]` is unwritten when `pattern[0]` is
nonzero. -/
theorem kmpInit_ok {p : List Nat} (hp : p ≠ []) (hp0 : p.getD 0 0 < RADIX) :
    ∃ t, kmpInit p = some t ∧
      ∀ c j, t c j =
        if c = p.getD 0 0 ∧ j = 0 then some 1
        else if j = 0 ∧ 1 ≤ c ∧ c ≤ 255 then some 0
        else none := by
  have hm : 0 < p.length := List.length_pos.mpr hp
  obtain ⟨t1, h1, h2⟩ := initFold_ok hm (List.range' 1 255) (fun _ _ => none)
    (by
      intro i hi
      rw [List.mem_range'] at hi
      obtain ⟨k, hk, rfl⟩ := hi
      unfold RADIX
      omega)
  have hmem : ∀ c : Nat, (c ∈ List.range' 1 255) ↔ (1 ≤ c ∧ c ≤ 255) := by
    intro c
    rw [List.mem_range']
    constructor
    · rintro ⟨k, hk, rfl⟩
      omega
    · intro hc
      exact ⟨c - 1, by omega, by omega⟩
  refine ⟨fun c' j' => if c' = p.getD 0 0 ∧ j' = 0 then some 1 else t1 c' j', ?_, ?_⟩
  · unfold kmpInit
    rw [h1]
    exact writeF_some t1 (some 1) hp0 hm
  · intro c j
    simp only []
    by_cases hcj : c = p.getD 0 0 ∧ j = 0
    · rw [if_pos hcj, if_pos hcj]
    · rw [if_neg hcj, if_neg hcj, h2]
      by_cases hj : j = 0
      · subst hj
        simp only [true_and]
        by_cases hcv : 1 ≤ c ∧ c ≤ 255
        · rw [if_pos ((hmem c).mpr hcv), if_pos hcv]
        · rw [if_neg (fun hmm => hcv ((hmem c).mp hmm)), if_neg hcv]
      · simp [hj]

/-- The copy loop of lines 54-56 over any set of rows: each listed row gets
column `x` copied into column `j`; nothing else changes.  Requires `x ≠ j`
so that the source column is not among the updated cells. -/
theorem copyCol_fold {m x j : Nat} (hj : j < m) (hxj : x ≠ j) :
    ∀ (cs : List Nat) (t : FTbl), (∀ c ∈ cs, c < RADIX) →
      ∃ t', cs.foldlM (fun t c => writeF m t c j (t c x)) t = some t' ∧
        ∀ c' j', t' c' j' = if j' = j ∧ c' ∈ cs then t c' x else t c' j' := by
  intro cs
  induction cs with
  | nil =>
    intro t h
    refine ⟨t, rfl, ?_⟩
    intro c' j'
    simp
  | cons c₀ cs ih =>
    intro t h
    obtain ⟨t', h1, h2⟩ :=
      ih (fun c' j' => if c' = c₀ ∧ j' = j then t c₀ x else t c' j')
        (fun c hc => h c (List.mem_cons_of_mem c₀ hc))
    refine ⟨t', ?_, ?_⟩
    · rw [List.foldlM_cons, writeF_some t (t c₀ x) (h c₀ (List.mem_cons_self c₀ cs)) hj]
      exact h1
    · intro c' j'
      rw [h2]
      by_cases hjj : j' = j
      · subst hjj
        by_cases hcs : c' ∈ cs
        · simp [hcs, List.mem_cons, hxj]
        · by_cases hc0 : c' = c₀
          · subst hc0
            simp [hcs, List.mem_cons, hxj]
          · simp [hcs, hc0, List.mem_cons]
      · simp [hjj]

/-- Lines 54-56 as a whole: the copy succeeds and column `j` becomes a copy
of column `x` on every row of the alphabet. -/
theorem copyCol_ok {m : Nat} (t : FTbl) {x j : Nat} (hj : j < m) (hxj : x ≠ j) :
    ∃ t', copyCol m t x j = some t' ∧
      ∀ c' j', t' c' j' = if j' = j ∧ c' < RADIX then t c' x else t c' j' := by
  obtain ⟨t', h1, h2⟩ := copyCol_fold hj hxj (List.range RADIX) t
    (fun c hc => List.mem_range.mp hc)
  refine ⟨t', h1, ?_⟩
  intro c' j'
  rw [h2]
  simp [List.mem_range]

/-- One construction-loop iteration (lines 52-63) preserves the invariant:
all columns below `j + 1` hold the Knuth-Morris-Pratt transitions on the
nonzero symbols, row 0 stays unwritten, and the new restart state is the
automaton state after reading the pattern prefix shifted by one. -/
theorem buildStep_ok {p : List Nat} (hv : ValidSeq p) {j : Nat} (hj1 : 1 ≤ j)
    (hjm : j < p.length) {t : FTbl} {x : Nat}
    (hcols : ColsOK p t j) (hrow : Row0 t j)
    (hx : x = matchLen p ((p.take j).drop 1)) :
    ∃ t2 x', buildStep p (t, x) j = some (t2, x') ∧ ColsOK p t2 (j + 1) ∧
      Row0 t2 (j + 1) ∧ x' = matchLen p ((p.take (j + 1)).drop 1) := by
  have hxj : x < j := by
    have h1 := matchLen_length_le p ((p.take j).drop 1)
    rw [List.length_drop, List.length_take_of_le (le_of_lt hjm)] at h1
    omega
  have hpj := hv _ (getD_mem_of_lt hjm)
  have hpjR : p.getD j 0 < RADIX := by
    unfold RADIX
    omega
  obtain ⟨t1, hc1, hc2⟩ := copyCol_ok t hjm (Nat.ne_of_lt hxj)
  have hover := writeF_some t1 (some (j + 1)) hpjR hjm
  have hread :
      (fun c' j' => if c' = p.getD j 0 ∧ j' = j then some (j + 1) else t1 c' j')
        (p.getD j 0) x = some (matchLen p (p.take x ++ [p.getD j 0])) := by
    simp only []
    rw [if_neg (fun hand => Nat.ne_of_lt hxj hand.2), hc2,
      if_neg (fun hand => Nat.ne_of_lt hxj hand.1)]
    exact hcols x hxj _ hpj.1 hpj.2
  have hshift : (p.take (j + 1)).drop 1 = (p.take j).drop 1 ++ [p.getD j 0] := by
    rw [take_succ_getD hjm, List.drop_append_of_le_length
      (by rw [List.length_take_of_le (le_of_lt hjm)]; omega)]
  have hxeq :
      matchLen p (p.take x ++ [p.getD j 0]) = matchLen p ((p.take (j + 1)).drop 1) := by
    rw [hshift, matchLen_append p ((p.take j).drop 1) (p.getD j 0), ← hx]
  refine ⟨fun c' j' => if c' = p.getD j 0 ∧ j' = j then some (j + 1) else t1 c' j',
    matchLen p ((p.take (j + 1)).drop 1), ?_, ?_, ?_, rfl⟩
  · have e1 : buildStep p (t, x) j =
        (copyCol p.length t x j).bind fun u =>
          (writeF p.length u (p.getD j 0) j (some (j + 1))).bind fun w =>
            (w (p.getD j 0) x).map fun x' => (w, x') := rfl
    rw [e1, hc1, Option.some_bind, hover, Option.some_bind, hread, Option.map_some', hxeq]
  · intro j' hj' c h1c h2c
    simp only []
    by_cases hjj : j' = j
    · rw [hjj]
      by_cases hcpj : c = p.getD j 0
      · rw [if_pos ⟨hcpj, rfl⟩, hcpj]
        have hm1 : p.take j ++ [p.getD j 0] = p.take (j + 1) := (take_succ_getD hjm).symm
        rw [hm1, matchLen_take p (by omega)]
      · rw [if_neg (fun hand => hcpj hand.1), hc2,
          if_pos ⟨rfl, by unfold RADIX; omega⟩, hcols x hxj c h1c h2c]
        congr 1
        rw [matchLen_mismatch hjm hcpj,
          matchLen_append p ((p.take j).drop 1) c, ← hx]
    · rw [if_neg (fun hand => hjj hand.2), hc2,
        if_neg (fun hand => hjj hand.1)]
      exact hcols j' (by omega) c h1c h2c
  · intro j' hj'
    simp only []
    rw [if_neg (fun hand => by have := hpj.1; omega)]
    by_cases hjj : j' = j
    · rw [hjj, hc2, if_pos ⟨rfl, by unfold RADIX; omega⟩]
      exact hrow x hxj
    · rw [hc2, if_neg (fun hand => hjj hand.1)]
      exact hrow j' (by omega)

/-- Unfolding one iteration off the end of `buildAt`. -/
theorem buildAt_succ (p : List Nat) {j : Nat} (h1 : 1 ≤ j) :
    buildAt p (j + 1) = (buildAt p j).bind fun tx => buildStep p tx j := by
  unfold buildAt
  cases hinit : kmpInit p with
  | none => rfl
  | some t0 =>
    simp only [Option.bind_eq_bind, Option.some_bind]
    have hj1 : j + 1 - 1 = (j - 1) + 1 := by omega
    rw [hj1, List.range'_concat]
    have hj2 : 1 + 1 * (j - 1) = j := by omega
    rw [hj2, List.foldlM_append]
    simp

/-- The construction invariant holds at the start of every loop iteration
`j` with `1 ≤ j ≤ patternlen`. -/
theorem buildAt_ok {p : List Nat} (hp : p ≠ []) (hv : ValidSeq p) :
    ∀ j, 1 ≤ j → j ≤ p.length →
      ∃ t x, buildAt p j = some (t, x) ∧ ColsOK p t j ∧ Row0 t j ∧
        x = matchLen p ((p.take j).drop 1) := by
  intro j
  induction j with
  | zero => omega
  | succ j ih =>
    intro h1 hle
    rcases Nat.eq_zero_or_pos j with hj0 | hjpos
    · subst hj0
      have hplen : 0 < p.length := List.length_pos.mpr hp
      have hp0 := hv _ (getD_mem_of_lt hplen)
      obtain ⟨t0, hI, hIc⟩ := kmpInit_ok hp (by unfold RADIX; omega)
      refine ⟨t0, 0, ?_, ?_, ?_, ?_⟩
      · unfold buildAt
        rw [hI]
        rfl
      · intro j' hj' c h1c h2c
        have hj'0 : j' = 0 := by omega
        subst hj'0
        rw [hIc]
        have he : p.take 0 ++ [c] = [c] := by simp
        rw [he, matchLen_single hp c]
        by_cases hc : c = p.getD 0 0
        · rw [if_pos ⟨hc, rfl⟩, if_pos hc]
        · rw [if_neg (fun hand => hc hand.1), if_pos ⟨rfl, h1c, h2c⟩, if_neg hc]
      · intro j' hj'
        have hj'0 : j' = 0 := by omega
        subst hj'0
        rw [hIc]
        have h0 : (0 : Nat) ≠ p.getD 0 0 := by have := hp0.1; omega
        rw [if_neg (fun hand => h0 hand.1), if_neg (fun hand => by omega)]
      · rw [take_one_of_ne_nil hp]
        simp [matchLen_nil]
    · obtain ⟨t, x, hb, hcols, hrow, hx⟩ := ih hjpos (by omega)
      obtain ⟨t2, x', hs, hcols2, hrow2, hx'⟩ :=
        buildStep_ok hv hjpos (by omega) hcols hrow hx
      refine ⟨t2, x', ?_, hcols2, hrow2, hx'⟩
      rw [buildAt_succ p hjpos, hb, Option.some_bind]
      exact hs

/-- The full build (lines 45-63) of a nonempty pattern delivered as a C
string succeeds; the resulting table carries the Knuth-Morris-Pratt
transitions on the nonzero symbols while row 0 is never written. -/
theorem kmpBuild_ok {p : List Nat} (hp : p ≠ []) (hv : ValidSeq p) :
    ∃ t, kmpBuild p = some t ∧ ColsOK p t p.length ∧ Row0 t p.length := by
  obtain ⟨t, x, hb, hcols, hrow, _⟩ :=
    buildAt_ok hp hv p.length (List.length_pos.mpr hp) (le_refl _)
  refine ⟨t, ?_, hcols, hrow⟩
  unfold kmpBuild
  rw [hb]
  rfl

/-- The scan loop (lines 66-77) is correct: started at text position
`pre.length` in match state `matchLen p pre`, with no occurrence of the
pattern ending inside `pre`, it returns the leftmost occurrence of `p` in
`t` (or the `NULL` marker when there is none). -/
theorem kmpScan_ok {p t : List Nat} {T : FTbl} (hp : p ≠ [])
    (hT : ColsOK p T p.length) (hv : ValidSeq t) (h64 : t.length < 2 ^ 64) :
    ∀ rest pre s, t = pre ++ rest → s = matchLen p pre → s < p.length →
      (∀ o, o + p.length ≤ pre.length → occursAt p t o = false) →
      kmpScan T p.length rest pre.length s = some (firstOccur p t) := by
  have hplen : 0 < p.length := List.length_pos.mpr hp
  intro rest
  induction rest with
  | nil =>
    intro pre s ht hs hlt hno
    have hpre : t.length = pre.length := by
      rw [ht, List.append_nil]
    have hfo : firstOccur p t = none := by
      unfold firstOccur
      rw [List.find?_eq_none]
      intro o ho
      rw [List.mem_range] at ho
      rcases le_or_lt (o + p.length) t.length with hc | hc
      · rw [hno o (by omega)]
        simp
      · rw [occursAt_false_of_short hp hc]
        simp
    rw [hfo]
    rfl
  | cons c rest ih =>
    intro pre s ht hs hlt hno
    have htlen : t.length = pre.length + 1 + rest.length := by
      rw [ht]
      simp only [List.length_append, List.length_cons]
      omega
    have hcv : 1 ≤ c ∧ c ≤ 255 :=
      hv c (by rw [ht]; exact List.mem_append_right _ (List.mem_cons_self _ _))
    have hTc := hT s hlt c hcv.1 hcv.2
    have htake : t.take (pre.length + 1) = pre ++ [c] := by
      rw [ht, show pre ++ c :: rest = (pre ++ [c]) ++ rest by simp]
      exact List.take_left' (by simp)
    have hs' : matchLen p (p.take s ++ [c]) = matchLen p (pre ++ [c]) := by
      rw [hs]
      exact (matchLen_append p pre c).symm
    rw [kmpScan, hTc, Option.some_bind]
    by_cases hm : p.length ≤ matchLen p (p.take s ++ [c])
    · rw [if_pos hm]
      have hmeq : matchLen p (pre ++ [c]) = p.length :=
        le_antisymm (matchLen_le _ _) (hs' ▸ hm)
      have hsufp : p <:+ pre ++ [c] := by
        have h := matchLen_suffix p (pre ++ [c])
        rwa [hmeq, List.take_length] at h
      have hple : p.length ≤ pre.length + 1 := by
        have h := matchLen_length_le p (pre ++ [c])
        rw [hmeq] at h
        simpa using h
      have hocc : occursAt p t (pre.length + 1 - p.length) = true := by
        rw [occursAt_eq_true]
        obtain ⟨u, hu⟩ := hsufp
        have hulen : u.length = pre.length + 1 - p.length := by
          have hl := congrArg List.length hu
          simp only [List.length_append, List.length_singleton] at hl
          omega
        have hdrop : t.drop (pre.length + 1 - p.length) = p ++ rest := by
          have ht2 : t = u ++ (p ++ rest) := by
            rw [ht, show pre ++ c :: rest = (pre ++ [c]) ++ rest by simp, ← hu,
              List.append_assoc]
          rw [ht2, ← hulen, List.drop_left]
        rw [hdrop]
        exact List.take_left' rfl
      have hmin : ∀ k, k < pre.length + 1 - p.length → occursAt p t k = false :=
        fun k hk => hno k (by omega)
      have hfo : firstOccur p t = some (pre.length + 1 - p.length) := by
        unfold firstOccur
        exact find?_range_eq_some hocc (by omega) hmin
      rw [hfo, sizeSub_eq (by omega) hplen hple]
    · rw [if_neg hm]
      have hlt' : matchLen p (pre ++ [c]) < p.length := by
        rw [← hs']
        omega
      have happ : t = (pre ++ [c]) ++ rest := by
        rw [ht]
        simp
      have hno' : ∀ o, o + p.length ≤ (pre ++ [c]).length → occursAt p t o = false := by
        intro o ho
        rw [List.length_append, List.length_singleton] at ho
        rcases le_or_lt (o + p.length) pre.length with hcase | hcase
        · exact hno o hcase
        · have hoe : o + p.length = pre.length + 1 := by omega
          cases hob : occursAt p t o with
          | false => rfl
          | true =>
            exfalso
            have he := occursAt_eq_true.mp hob
            have hta : t.take (o + p.length) = t.take o ++ p := by
              rw [List.take_add, he]
            have hsuf2 : p <:+ pre ++ [c] := by
              rw [← htake, ← hoe, hta]
              exact ⟨t.take o, rfl⟩
            have hgem : p.length ≤ matchLen p (pre ++ [c]) := by
              apply le_matchLen (le_refl _)
              rw [List.take_length]
              exact hsuf2
            omega
      have hres := ih (pre ++ [c]) (matchLen p (p.take s ++ [c])) happ hs'
        (by omega) hno'
      rw [List.length_append, List.length_singleton] at hres
      exact hres

/-- Main correctness helper: on C-string inputs, `kmp` returns exactly the
leftmost occurrence of the pattern in the text, or the `NULL` marker when
there is none. -/
theorem kmp_eq {p t : List Nat} (hp : p ≠ []) (hvp : ValidSeq p)
    (hvt : ValidSeq t) (h64 : t.length < 2 ^ 64) :
    kmp t p = some (firstOccur p t) := by
  obtain ⟨T, hb, hcols, hrow⟩ := kmpBuild_ok hp hvp
  have e1 : kmp t p = (kmpBuild p).bind fun T => kmpScan T p.length t 0 0 := rfl
  rw [e1, hb, Option.some_bind]
  exact kmpScan_ok hp hcols hvt h64 t [] 0 (List.nil_append t).symm
    (matchLen_nil p).symm (List.length_pos.mpr hp)
    (by
      intro o ho
      exfalso
      simp only [List.length_nil] at ho
      have := List.length_pos.mpr hp
      omega)

/-- C1: for every non-empty pattern and every text as delivered by the
C-string interface (nonzero bytes, length representable in `size_t`),
`kmp(text, pattern)` returns the smallest offset `i` such that
`t[i .. i + len p)` equals `p` — the value `firstOccur p t` — and the
`NULL` marker when no such offset exists. -/
theorem kmp_returns_leftmost_match (p t : List Nat) (hp : p ≠ [])
    (hvp : ValidSeq p) (hvt : ValidSeq t) (h64 : t.length < 2 ^ 64) :
    kmp t p = some (firstOccur p t) :=
  kmp_eq hp hvp hvt h64

/-- Witness for `kmp_returns_leftmost_match` at a concrete input. -/
theorem kmp_returns_leftmost_match_witness :
    kmp (ascii "cab") (ascii "ab") = some (firstOccur (ascii "ab") (ascii "cab")) :=
  kmp_returns_leftmost_match (ascii "ab") (ascii "cab") (by decide) (by decide)
    (by decide) (by decide)

/-- C2: the code has no empty-pattern check.  With an empty pattern the
function declares a zero-column table and immediately performs out-of-bounds
stores (`dfa[1][0] = 0`, line 47) — undefined behavior, modelled as `none` —
instead of raising an `InvalidPattern` condition. -/
theorem build_empty_pattern_out_of_bounds :
    kmpBuild [] = none ∧ kmp (ascii "abc") [] = none :=
  ⟨rfl, rfl⟩

/-- C3: the claimed table totality fails at symbol 0.  Because the
initialization loop (line 46) starts at `i = 1`, row 0 of the table is never
written (column copies only propagate its indeterminate content), while
every entry for a nonzero symbol is defined with an in-range value `≤ m`. -/
theorem build_table_symbol_zero_unwritten (p : List Nat) (hp : p ≠ [])
    (hv : ValidSeq p) :
    ∃ T, kmpBuild p = some T ∧
      (∀ j, j < p.length → T 0 j = none) ∧
      (∀ j, j < p.length → ∀ c, 1 ≤ c → c ≤ 255 →
        ∃ v, T c j = some v ∧ v ≤ p.length) := by
  obtain ⟨T, hb, hcols, hrow⟩ := kmpBuild_ok hp hv
  refine ⟨T, hb, hrow, ?_⟩
  intro j hj c h1c h2c
  exact ⟨_, hcols j hj c h1c h2c, matchLen_le p _⟩

/-- Witness for `build_table_symbol_zero_unwritten`: the table built for
pattern `"a"` holds no value at cell `dfa[0][0]`. -/
theorem build_table_symbol_zero_unwritten_witness :
    builtCell (ascii "a") 0 0 = some none := by
  obtain ⟨T, hb, hrow, _⟩ :=
    build_table_symbol_zero_unwritten (ascii "a") (by decide) (by decide)
  unfold builtCell
  rw [hb, Option.map_some', hrow 0 (by decide)]

/-- C4: column 0 of the built table sends `pattern[0]` to state 1 and every
nonzero symbol other than `pattern[0]` to state 0; the entry for symbol 0 —
also a symbol of the 256-symbol alphabet different from `pattern[0]` — is
left unwritten instead of holding state 0. -/
theorem build_first_column (p : List Nat) (hp : p ≠ []) (hv : ValidSeq p) :
    ∃ T, kmpBuild p = some T ∧
      T (p.getD 0 0) 0 = some 1 ∧
      (∀ c, 1 ≤ c → c ≤ 255 → c ≠ p.getD 0 0 → T c 0 = some 0) ∧
      T 0 0 = none := by
  obtain ⟨T, hb, hcols, hrow⟩ := kmpBuild_ok hp hv
  have hplen : 0 < p.length := List.length_pos.mpr hp
  have hp0 := hv _ (getD_mem_of_lt hplen)
  have hcol0 : ∀ c, 1 ≤ c → c ≤ 255 →
      T c 0 = some (if c = p.getD 0 0 then 1 else 0) := by
    intro c h1c h2c
    have h := hcols 0 hplen c h1c h2c
    rwa [show p.take 0 ++ [c] = [c] by simp, matchLen_single hp c] at h
  refine ⟨T, hb, ?_, ?_, hrow 0 hplen⟩
  · rw [hcol0 _ hp0.1 hp0.2, if_pos rfl]
  · intro c h1c h2c hc
    rw [hcol0 c h1c h2c, if_neg hc]

/-- Witness for `build_first_column` at pattern `"ab"`. -/
theorem build_first_column_witness :
    builtCell (ascii "ab") 97 0 = some (some 1) ∧
    builtCell (ascii "ab") 98 0 = some (some 0) := by
  obtain ⟨T, hb, h1, h2, h3⟩ := build_first_column (ascii "ab") (by decide) (by decide)
  have he : (ascii "ab").getD 0 0 = 97 := by decide
  unfold builtCell
  rw [hb, Option.map_some', Option.map_some']
  constructor
  · rw [← he, h1]
  · rw [h2 98 (by decide) (by decide) (by rw [he]; decide)]

/-- C5: the alphabet is meant to be all 256 raw byte values, but the index
cast `(size_t)pattern[j]` / `(size_t)text[i]` (lines 49, 59, 62, 68) goes
through `char`.  On an ABI where `char` is signed (x86-64 SysV), a byte
`≥ 128` sign-extends: byte 200 yields index `2 ^ 64 - 56`, far outside
`[0, RADIX)`, making those table accesses out of bounds; bytes below 128 are
unaffected. -/
theorem signed_char_cast_escapes_alphabet :
    charCastSigned 200 = 2 ^ 64 - 56 ∧ ¬ charCastSigned 200 < RADIX ∧
    charCastSigned 97 = 97 :=
  ⟨by decide, by decide, by decide⟩

/-- C6: scanning an empty text yields absence for every non-empty C-string
pattern; in particular `scan(build("a"), "")` is absent and
`scan(build("a"), "a")` returns offset 0. -/
theorem scan_empty_text_and_single_char :
    (∀ p : List Nat, p ≠ [] → ValidSeq p → kmp [] p = some none) ∧
    kmp (ascii "") (ascii "a") = some none ∧
    kmp (ascii "a") (ascii "a") = some (some 0) := by
  refine ⟨?_, by decide, by decide⟩
  intro p hp hv
  obtain ⟨T, hb, _, _⟩ := kmpBuild_ok hp hv
  have e1 : kmp [] p = (kmpBuild p).bind fun T => kmpScan T p.length [] 0 0 := rfl
  rw [e1, hb, Option.some_bind]
  rfl

/-- Witness for the universally quantified part of
`scan_empty_text_and_single_char`. -/
theorem scan_empty_text_witness : kmp [] (ascii "b") = some none :=
  scan_empty_text_and_single_char.1 (ascii "b") (by decide) (by decide)

/-- C7: self-match — scanning the pattern over itself returns offset 0. -/
theorem kmp_self_match (p : List Nat) (hp : p ≠ []) (hv : ValidSeq p)
    (h64 : p.length < 2 ^ 64) : kmp p p = some (some 0) := by
  rw [kmp_eq hp hv hv h64]
  have hocc : occursAt p p 0 = true := by
    rw [occursAt_eq_true]
    simp
  have hfo : firstOccur p p = some 0 := by
    unfold firstOccur
    exact find?_range_eq_some hocc (List.length_pos.mpr hp) (fun k hk => by omega)
  rw [hfo]

/-- Witness for `kmp_self_match`. -/
theorem kmp_self_match_witness : kmp (ascii "aba") (ascii "aba") = some (some 0) :=
  kmp_self_match (ascii "aba") (by decide) (by decide) (by decide)

/-- C8: concrete leftmost-match, overlapping-pattern and no-match cases of
the specification, evaluated on the model. -/
theorem kmp_concrete_cases :
    kmp (ascii "aaaa") (ascii "aa") = some (some 0) ∧
    kmp (ascii "aabaabaaba") (ascii "aaba") = some (some 0) ∧
    kmp (ascii "ababab") (ascii "abab") = some (some 0) ∧
    kmp (ascii "aaaa") (ascii "xyz") = some none :=
  ⟨by decide, by decide, by decide, by decide⟩

/-- C9: `scan` is deterministic and `build` is behaviorally idempotent: two
runs of the scan with the same table and text agree, and any two successful
builds of the same pattern yield tables under which scanning any text gives
identical results. -/
theorem kmp_deterministic (p t : List Nat) (T T' : FTbl)
    (h1 : kmpBuild p = some T) (h2 : kmpBuild p = some T') :
    kmpScan T p.length t 0 0 = kmpScan T p.length t 0 0 ∧
    kmpScan T p.length t 0 0 = kmpScan T' p.length t 0 0 := by
  have hTT : T = T' := by
    rw [h1] at h2
    exact Option.some.inj h2
  exact ⟨rfl, by rw [hTT]⟩

/-- Witness for `kmp_deterministic`. -/
theorem kmp_deterministic_witness :
    kmpScan ((kmpBuild (ascii "a")).getD fun _ _ => none) (ascii "a").length
      (ascii "a") 0 0 =
    kmpScan ((kmpBuild (ascii "a")).getD fun _ _ => none) (ascii "a").length
      (ascii "a") 0 0 := by
  have hEq : kmpBuild (ascii "a") =
      some ((kmpBuild (ascii "a")).getD fun _ _ => none) := rfl
  exact (kmp_deterministic (ascii "a") (ascii "a") _ _ hEq hEq).1

/-- C10 counterexample: at the start of iteration `j = 1` for pattern `"ab"`
the restart cursor is 0, yet the copied column 0 is not fully written — its
entry at symbol 0 (`dfa[0][0]`) was never stored. -/
theorem build_loop_copies_unwritten_cell :
    buildAtCursor (ascii "ab") 1 = some 0 ∧
    buildAtCell (ascii "ab") 1 0 0 = some none :=
  ⟨by decide, by decide⟩

/-- C10 (amended): at the start of each construction-loop iteration `j`
(`1 ≤ j < m`) the restart cursor `x` is strictly below `j`; the column it
copies from is written with a value at most `x + 1` at every nonzero symbol
(its symbol-0 entry is never written); and every value the iteration stores
into column `j` is at most `j + 1 ≤ m`. -/
theorem build_loop_invariant (p : List Nat) (hp : p ≠ []) (hv : ValidSeq p)
    (j : Nat) (h1 : 1 ≤ j) (hj : j < p.length) :
    ∃ T x, buildAt p j = some (T, x) ∧ x < j ∧ j + 1 ≤ p.length ∧
      (∀ c, 1 ≤ c → c ≤ 255 → ∃ v, T c x = some v ∧ v ≤ x + 1) ∧
      (∀ T' x', buildStep p (T, x) j = some (T', x') →
        ∀ c v, c < RADIX → T' c j = some v → v ≤ j + 1) := by
  obtain ⟨T, x, hb, hcols, hrow, hx⟩ := buildAt_ok hp hv j h1 (le_of_lt hj)
  have hxj : x < j := by
    have h := matchLen_length_le p ((p.take j).drop 1)
    rw [List.length_drop, List.length_take_of_le (le_of_lt hj)] at h
    omega
  refine ⟨T, x, hb, hxj, by omega, ?_, ?_⟩
  · intro c h1c h2c
    refine ⟨_, hcols x (by omega) c h1c h2c, ?_⟩
    have h := matchLen_length_le p (p.take x ++ [c])
    rw [List.length_append, List.length_take_of_le (by omega),
      List.length_singleton] at h
    exact h
  · intro T' x' hstep c v hcR hcell
    obtain ⟨T2, x2, hs2, hcols2, hrow2, hx2⟩ := buildStep_ok hv h1 hj hcols hrow hx
    rw [hs2] at hstep
    have hT : T2 = T' := congrArg Prod.fst (Option.some.inj hstep)
    rcases Nat.eq_zero_or_pos c with hc0 | hcpos
    · rw [hc0, ← hT, hrow2 j (by omega)] at hcell
      exact absurd hcell (by simp)
    · have hc255 : c ≤ 255 := by unfold RADIX at hcR; omega
      rw [← hT, hcols2 j (by omega) c hcpos hc255] at hcell
      have hv' := Option.some.inj hcell
      have h := matchLen_length_le p (p.take j ++ [c])
      rw [List.length_append, List.length_take_of_le (le_of_lt hj),
        List.length_singleton] at h
      omega

/-- Witness for `build_loop_invariant` at pattern `"ab"`, iteration 1. -/
theorem build_loop_invariant_witness :
    ∃ x, buildAtCursor (ascii "ab") 1 = some x ∧ x < 1 := by
  obtain ⟨T, x, hb, hx, _, _, _⟩ :=
    build_loop_invariant (ascii "ab") (by decide) (by decide) 1 (by decide) (by decide)
  refine ⟨x, ?_, hx⟩
  unfold buildAtCursor
  rw [hb, Option.map_some']
